import Mathlib

/-!
Verification of `zipdoc.py`, a Mercurial encode/decode filter pair for
uncompressed storage of zipped document formats.

Byte strings (Python `bytes`) are modelled as `List Nat`.  The `zipfile`
library is an external trusted black box: an in-memory buffer is seen
through it either as a buffer that raises `BadZipfile` on opening, or as
the ordered list of archive members it yields (`infolist()` order, with
each member read in full).  The Mercurial `ui` object is modelled by
returning the list of diagnostic events a call emits.
-/

/-- ZIP compression method constant `zipfile.ZIP_STORED` (no compression). -/
def ZIP_STORED : Nat := 0

/-- ZIP compression method constant `zipfile.ZIP_DEFLATED`. -/
def ZIP_DEFLATED : Nat := 8

/-- One archive member as seen through `zipfile`: its name (a byte string),
its declared compression method, the remaining `ZipInfo` metadata fields
(opaque here, passed through `writestr` unchanged), and its fully
decompressed content bytes. -/
structure ZipMember where
  filename : List Nat
  compress_type : Nat
  extra : List Nat
  content : List Nat
deriving DecidableEq

/-- An in-memory buffer as seen through the `zipfile` library: either
opening it raises `BadZipfile` (the raw bytes are kept), or it is a valid
archive yielding its members in `infolist()` order. -/
inductive ZipData where
  | badZip (raw : List Nat)
  | archive (members : List ZipMember)
deriving DecidableEq

/-- A diagnostic event sent to the Mercurial `ui` object: `ui.note(msg)`
or `ui.debug(msg)`. -/
inductive Event where
  | note (msg : String)
  | debug (msg : String)
deriving DecidableEq

/-- Whether an event is note-level. -/
def isNote : Event → Bool
  | .note _ => true
  | .debug _ => false

/-- Number of note-level events in a list of events. -/
def noteCount (evs : List Event) : Nat := (evs.filter isNote).length

/-- ASCII lowercasing of one byte, embedding Python `str.lower` on the
member names that occur in ZIP archives. -/
def lowerByte (b : Nat) : Nat := if 65 ≤ b ∧ b ≤ 90 then b + 32 else b

/-- Embeds the member-name test
`archive_member_info.filename.lower().endswith(".xml")` from zipdoc.py
(lines 145 and 182): the name, lowercased, ends with the four bytes
`.xml` = `[46, 120, 109, 108]`. -/
def isXmlName (name : List Nat) : Bool :=
  List.isSuffixOf [46, 120, 109, 108] (name.map lowerByte)

/-- Embeds `archive_member.replace(b"><", b">\r\n <")` from zipdoc.py line
148: every occurrence of the two bytes `><` = `[62, 60]`, found left to
right without overlap, is replaced by the five bytes
`>` CR LF space `<` = `[62, 13, 10, 32, 60]`. -/
def split : List Nat → List Nat
  | 62 :: 60 :: rest => 62 :: 13 :: 10 :: 32 :: 60 :: split rest
  | a :: rest => a :: split rest
  | [] => []

/-- Embeds `archive_member.replace(b">\r\n <", b"><")` from zipdoc.py line
185: every occurrence of the five bytes `[62, 13, 10, 32, 60]`, found left
to right without overlap, is replaced by the two bytes `[62, 60]`. -/
def join : List Nat → List Nat
  | 62 :: 13 :: 10 :: 32 :: 60 :: rest => 62 :: 60 :: join rest
  | a :: rest => a :: join rest
  | [] => []

/-- Python `bytes.replace(old, new)` for a non-empty needle `old`: scan
left to right; at each position, if `old` is a prefix of the remainder,
emit `new` and skip past the match, otherwise copy one byte.  `split` and
`join` are proved below to be its two instances used by zipdoc.py. -/
def bytesReplace (old new : List Nat) (s : List Nat) : List Nat :=
  match s with
  | [] => []
  | a :: t =>
    if h : old ≠ [] ∧ old <+: (a :: t) then
      new ++ bytesReplace old new (List.drop old.length (a :: t))
    else
      a :: bytesReplace old new t
termination_by s.length
decreasing_by
  · have hp : 0 < old.length := List.length_pos.mpr h.1
    simp [List.length_drop]
    omega
  · simp

/-- Embeds `zipdocencode(s, cmd, **kwargs)` from zipdoc.py lines 113-158.
On `BadZipfile` the original buffer is returned and one note-level event
is emitted.  Otherwise every member is rewritten with compression method
`ZIP_STORED`; members whose lowercased name ends in `.xml` get their
content passed through `split`, all other members keep their content;
one debug-level event is emitted.  The unused `cmd` argument is dropped;
`filename` is the `kwargs["filename"]` string used only in messages. -/
def zipdocencode (s : ZipData) (filename : String) : ZipData × List Event :=
  match s with
  | .badZip raw =>
      (.badZip raw,
       [Event.note ("zipdoc: Skipped encoding \x27" ++ filename
          ++ "\x27 due to bad ZIP archive. The file is not a ZIP"
          ++ " (might be a link) or the archive is broken.\n")])
  | .archive ms =>
      (.archive (ms.map fun m =>
        { m with
          compress_type := ZIP_STORED,
          content := if isXmlName m.filename then split m.content
                     else m.content }),
       [Event.debug ("zipdoc: Encoded " ++ filename ++ "\n")])

/-- Embeds `zipdocdecode(s, cmd, **kwargs)` from zipdoc.py lines 160-195.
On `BadZipfile` the original buffer is returned and one note-level event
is emitted.  Otherwise every member is rewritten with compression method
`ZIP_DEFLATED`; members whose lowercased name ends in `.xml` get their
content passed through `join`, all other members keep their content;
one debug-level event is emitted. -/
def zipdocdecode (s : ZipData) (filename : String) : ZipData × List Event :=
  match s with
  | .badZip raw =>
      (.badZip raw,
       [Event.note ("zipdoc: Skipped decoding \x27" ++ filename
          ++ "\x27 due to bad ZIP archive. The file is not a ZIP"
          ++ " (might be a link) or the archive is broken.\n")])
  | .archive ms =>
      (.archive (ms.map fun m =>
        { m with
          compress_type := ZIP_DEFLATED,
          content := if isXmlName m.filename then join m.content
                     else m.content }),
       [Event.debug ("zipdoc: Decoded " ++ filename ++ "\n")])

/-- The member list a buffer yields (empty for a bad buffer). -/
def membersOf : ZipData → List ZipMember
  | .badZip _ => []
  | .archive ms => ms

/-- Scanner for an occurrence of the two bytes `[62, 60]` anywhere in a
byte string; proof-internal counterpart of `[62, 60] <:+: l`. -/
def containsSplitPat : List Nat → Bool
  | 62 :: 60 :: _ => true
  | _ :: rest => containsSplitPat rest
  | [] => false

/-- Case analysis for `split` on a cons cell: either the default copying
branch applies, or the head two bytes are the `><` pattern. -/
theorem split_cons_cases (b : Nat) (t : List Nat) :
    split (b :: t) = b :: split t ∨ (b = 62 ∧ ∃ r, t = 60 :: r) := by
  by_cases hb : b = 62
  · subst hb
    rcases t with _ | ⟨c, r⟩
    · left
      rw [split.eq_2]
      intro r _ h
      simp at h
    · by_cases hc : c = 60
      · subst hc
        right
        exact ⟨rfl, r, rfl⟩
      · left
        rw [split.eq_2]
        intro r' _ h
        injection h with h1 _
        exact hc h1
  · left
    rw [split.eq_2]
    intro r h _
    exact hb h

/-- Case analysis for `join` on a cons cell: either the default copying
branch applies, or the head five bytes are the `>` CR LF space `<`
pattern. -/
theorem join_cons_cases (b : Nat) (t : List Nat) :
    join (b :: t) = b :: join t ∨ (b = 62 ∧ ∃ r, t = 13 :: 10 :: 32 :: 60 :: r) := by
  by_cases hb : b = 62
  · subst hb
    rcases t with _ | ⟨c1, t1⟩
    · left
      rw [join.eq_2]
      intro r _ h
      simp at h
    · by_cases h1 : c1 = 13
      · subst h1
        rcases t1 with _ | ⟨c2, t2⟩
        · left
          rw [join.eq_2]
          intro r _ h
          simp at h
        · by_cases h2 : c2 = 10
          · subst h2
            rcases t2 with _ | ⟨c3, t3⟩
            · left
              rw [join.eq_2]
              intro r _ h
              simp at h
            · by_cases h3 : c3 = 32
              · subst h3
                rcases t3 with _ | ⟨c4, t4⟩
                · left
                  rw [join.eq_2]
                  intro r _ h
                  simp at h
                · by_cases h4 : c4 = 60
                  · subst h4
                    right
                    exact ⟨rfl, t4, rfl⟩
                  · left
                    rw [join.eq_2]
                    intro r _ h
                    injection h with _ h
                    injection h with _ h
                    injection h with _ h
                    injection h with e4 _
                    exact h4 e4
              · left
                rw [join.eq_2]
                intro r _ h
                injection h with _ h
                injection h with _ h
                injection h with e3 _
                exact h3 e3
          · left
            rw [join.eq_2]
            intro r _ h
            injection h with _ h
            injection h with e2 _
            exact h2 e2
      · left
        rw [join.eq_2]
        intro r _ h
        injection h with e1 _
        exact h1 e1
  · left
    rw [join.eq_2]
    intro r h _
    exact hb h

/-- If `split l` starts with a byte other than 62, that byte was the head
of `l` and the tail of the output is `split` of the tail of `l`. -/
theorem split_eq_cons (b : Nat) (hb : b ≠ 62) (l m : List Nat)
    (h : split l = b :: m) : ∃ l', l = b :: l' ∧ split l' = m := by
  rcases l with _ | ⟨c, t⟩
  · simp [split] at h
  · rcases split_cons_cases c t with hc | ⟨hc62, r, hr⟩
    · rw [hc] at h
      injection h with h1 h2
      subst h1
      exact ⟨t, rfl, h2⟩
    · subst hc62
      subst hr
      rw [split.eq_1] at h
      injection h with h1 _
      exact absurd h1.symm hb

/-- If `join l` starts with a byte other than 62, that byte was the head
of `l` and the tail of the output is `join` of the tail of `l`. -/
theorem join_eq_cons (b : Nat) (hb : b ≠ 62) (l m : List Nat)
    (h : join l = b :: m) : ∃ l', l = b :: l' ∧ join l' = m := by
  rcases l with _ | ⟨c, t⟩
  · simp [join] at h
  · rcases join_cons_cases c t with hc | ⟨hc62, r, hr⟩
    · rw [hc] at h
      injection h with h1 h2
      subst h1
      exact ⟨t, rfl, h2⟩
    · subst hc62
      subst hr
      rw [join.eq_1] at h
      injection h with h1 _
      exact absurd h1.symm hb

/-- If `split l` starts with CR LF space `<`, then `l` itself does: the
inserted line break bytes can only have been copied from the input at such
a position. -/
theorem split_starts_crlf (l m : List Nat)
    (h : split l = 13 :: 10 :: 32 :: 60 :: m) :
    ∃ l', l = 13 :: 10 :: 32 :: 60 :: l' ∧ split l' = m := by
  obtain ⟨l1, rfl, h1⟩ := split_eq_cons 13 (by decide) _ _ h
  obtain ⟨l2, rfl, h2⟩ := split_eq_cons 10 (by decide) _ _ h1
  obtain ⟨l3, rfl, h3⟩ := split_eq_cons 32 (by decide) _ _ h2
  obtain ⟨l4, rfl, h4⟩ := split_eq_cons 60 (by decide) _ _ h3
  exact ⟨l4, rfl, h4⟩

/-- A scanner hit in the tail is a hit in the whole list. -/
theorem containsSplitPat_cons_true (b : Nat) (rest : List Nat)
    (h : containsSplitPat rest = true) : containsSplitPat (b :: rest) = true := by
  rcases split_cons_cases b rest with _ | ⟨hb, r, hr⟩
  · by_cases hb : b = 62
    · subst hb
      rcases rest with _ | ⟨c, r⟩
      · simp [containsSplitPat] at h
      · by_cases hc : c = 60
        · subst hc
          rw [containsSplitPat.eq_1]
        · rw [containsSplitPat.eq_2]
          · exact h
          · intro r' _ he
            injection he with e _
            exact hc e
    · rw [containsSplitPat.eq_2]
      · exact h
      · intro r' he _
        exact hb he
  · subst hb
    subst hr
    rw [containsSplitPat.eq_1]

/-- An occurrence of `[62, 60]` as a contiguous subsequence is found by
the scanner. -/
theorem containsSplitPat_of_occurrence (l : List Nat)
    (h : [62, 60] <:+: l) : containsSplitPat l = true := by
  obtain ⟨s, t, rfl⟩ := h
  induction s with
  | nil => exact containsSplitPat.eq_1 t
  | cons b s ih => exact containsSplitPat_cons_true b _ ih

/-- Scanning past the five inserted bytes `62 13 10 32 60`: none of the
four adjacent pairs inside them is `62 60`. -/
theorem containsSplitPat_five (m : List Nat) :
    containsSplitPat (62 :: 13 :: 10 :: 32 :: 60 :: m) = containsSplitPat m := by
  have e1 : containsSplitPat (62 :: 13 :: 10 :: 32 :: 60 :: m)
      = containsSplitPat (13 :: 10 :: 32 :: 60 :: m) :=
    containsSplitPat.eq_2 62 _ (fun r _ h => by simp at h)
  have e2 : containsSplitPat (13 :: 10 :: 32 :: 60 :: m)
      = containsSplitPat (10 :: 32 :: 60 :: m) :=
    containsSplitPat.eq_2 13 _ (fun r h _ => absurd h (by decide))
  have e3 : containsSplitPat (10 :: 32 :: 60 :: m)
      = containsSplitPat (32 :: 60 :: m) :=
    containsSplitPat.eq_2 10 _ (fun r h _ => absurd h (by decide))
  have e4 : containsSplitPat (32 :: 60 :: m)
      = containsSplitPat (60 :: m) :=
    containsSplitPat.eq_2 32 _ (fun r h _ => absurd h (by decide))
  have e5 : containsSplitPat (60 :: m) = containsSplitPat m :=
    containsSplitPat.eq_2 60 _ (fun r h _ => absurd h (by decide))
  rw [e1, e2, e3, e4, e5]

/-- The output of `split` contains no occurrence of `[62, 60]`: every
such pair in the input was rewritten, and the rewriting creates none. -/
theorem containsSplitPat_split (x : List Nat) :
    containsSplitPat (split x) = false := by
  induction x using split.induct with
  | case1 rest ih =>
    rw [split.eq_1, containsSplitPat_five]
    exact ih
  | case2 a rest hno ih =>
    rw [split.eq_2 a rest hno]
    rw [containsSplitPat.eq_2 a (split rest) ?side]
    · exact ih
    case side =>
      intro r ha hsp
      obtain ⟨l', hl', _⟩ := split_eq_cons 60 (by decide) rest r hsp
      exact hno l' ha hl'
  | case3 => rfl

/-- A byte string without any `[62, 60]` occurrence is a fixed point of
`split`. -/
theorem split_id_of_not_contains (y : List Nat)
    (h : containsSplitPat y = false) : split y = y := by
  induction y using split.induct with
  | case1 rest ih =>
    rw [containsSplitPat.eq_1] at h
    exact absurd h (by simp)
  | case2 a rest hno ih =>
    rw [containsSplitPat.eq_2 a rest hno] at h
    rw [split.eq_2 a rest hno, ih h]
  | case3 => rfl

/-- Round trip on the split side: if `x` contains no occurrence of the
five bytes `62 13 10 32 60`, then `join (split x) = x`. -/
theorem join_split_of_no_occurrence (x : List Nat) :
    ¬ ([62, 13, 10, 32, 60] <:+: x) → join (split x) = x := by
  induction x using split.induct with
  | case1 rest ih =>
    intro h
    have hrest : ¬ ([62, 13, 10, 32, 60] <:+: rest) :=
      fun hc => h (List.infix_cons (List.infix_cons hc))
    rw [split.eq_1, join.eq_1, ih hrest]
  | case2 a rest hno ih =>
    intro h
    have hrest : ¬ ([62, 13, 10, 32, 60] <:+: rest) :=
      fun hc => h (List.infix_cons hc)
    have hside : ∀ r, a = 62 → split rest = 13 :: 10 :: 32 :: 60 :: r → False := by
      intro r ha hsp
      obtain ⟨l', hl', _⟩ := split_starts_crlf rest r hsp
      apply h
      rw [ha, hl']
      exact ⟨[], l', rfl⟩
    rw [split.eq_2 a rest hno, join.eq_2 a (split rest) hside, ih hrest]
  | case3 =>
    intro _
    rfl

/-- Round trip on the join side: if `y` contains no occurrence of
`[62, 60]`, then `split (join y) = y`.  Every output of `split` satisfies
the hypothesis by `containsSplitPat_split`. -/
theorem split_join_of_not_contains (y : List Nat) :
    containsSplitPat y = false → split (join y) = y := by
  induction y using join.induct with
  | case1 rest ih =>
    intro h
    rw [containsSplitPat_five] at h
    rw [join.eq_1, split.eq_1, ih h]
  | case2 a rest hno ih =>
    intro h
    have hno2 : ∀ r, a = 62 → rest = 60 :: r → False := by
      intro r ha hr
      subst ha
      subst hr
      rw [containsSplitPat.eq_1] at h
      exact absurd h (by simp)
    rw [containsSplitPat.eq_2 a rest hno2] at h
    have hside : ∀ r, a = 62 → join rest = 60 :: r → False := by
      intro r ha hj
      obtain ⟨l', hl', _⟩ := join_eq_cons 60 (by decide) rest r hj
      exact hno2 l' ha hl'
    rw [join.eq_2 a rest hno, split.eq_2 a (join rest) hside, ih h]
  | case3 =>
    intro _
    rfl

/-- Faithfulness of `split`: it is `bytes.replace(b"><", b">\r\n <")`,
i.e. `bytesReplace` at the patterns of zipdoc.py line 148. -/
theorem bytesReplace_split (l : List Nat) :
    bytesReplace [62, 60] [62, 13, 10, 32, 60] l = split l := by
  induction l using split.induct with
  | case1 rest ih =>
    rw [split.eq_1, bytesReplace.eq_2,
        dif_pos ⟨by decide, ⟨rest, rfl⟩⟩]
    have hd : List.drop ([62, 60] : List Nat).length (62 :: 60 :: rest) = rest := rfl
    rw [hd, ih]
    rfl
  | case2 a rest hno ih =>
    rw [split.eq_2 a rest hno, bytesReplace.eq_2, dif_neg, ih]
    intro hc
    obtain ⟨t, ht⟩ := hc.2
    simp only [List.cons_append, List.nil_append] at ht
    injection ht with e1 e2
    exact hno t e1.symm e2.symm
  | case3 => rw [bytesReplace.eq_1, split.eq_3]

/-- Faithfulness of `join`: it is `bytes.replace(b">\r\n <", b"><")`,
i.e. `bytesReplace` at the patterns of zipdoc.py line 185. -/
theorem bytesReplace_join (l : List Nat) :
    bytesReplace [62, 13, 10, 32, 60] [62, 60] l = join l := by
  induction l using join.induct with
  | case1 rest ih =>
    rw [join.eq_1, bytesReplace.eq_2,
        dif_pos ⟨by decide, ⟨rest, rfl⟩⟩]
    have hd : List.drop ([62, 13, 10, 32, 60] : List Nat).length
        (62 :: 13 :: 10 :: 32 :: 60 :: rest) = rest := rfl
    rw [hd, ih]
    rfl
  | case2 a rest hno ih =>
    rw [join.eq_2 a rest hno, bytesReplace.eq_2, dif_neg, ih]
    intro hc
    obtain ⟨t, ht⟩ := hc.2
    simp only [List.cons_append, List.nil_append] at ht
    injection ht with e1 e2
    exact hno t e1.symm e2.symm
  | case3 => rw [bytesReplace.eq_1, join.eq_3]

/-- C1: for every byte sequence `x` that contains no occurrence of the
literal sequence `>` CR LF space `<` (bytes `[62, 13, 10, 32, 60]`),
applying the join substitution to the result of the split substitution
returns `x` unchanged: `join (split x) = x`. -/
theorem xml_round_trip (x : List Nat) :
    ¬ ([62, 13, 10, 32, 60] <:+: x) → join (split x) = x :=
  join_split_of_no_occurrence x

theorem xml_round_trip_witness :
    ¬ ([62, 13, 10, 32, 60] <:+: [60, 97, 62, 60, 98]) ∧
      join (split [60, 97, 62, 60, 98]) = [60, 97, 62, 60, 98] :=
  ⟨by decide, xml_round_trip [60, 97, 62, 60, 98] (by decide)⟩

/-- C3 counterexample: `join (split x) = x` does not hold for ALL byte
sequences: at `x = [62, 13, 10, 32, 60]` (the literal `>` CR LF space `<`),
`split` leaves `x` unchanged and `join` collapses it to `[62, 60]`. -/
theorem split_join_universal_counterexample :
    ¬ (join (split [62, 13, 10, 32, 60]) = [62, 13, 10, 32, 60]) := by
  decide

/-- C3 amended: the split and join substitutions are exact inverses on
any input produced by the other, with the necessary restriction on the
first direction: `join (split x) = x` for every `x` that contains no
occurrence of `>` CR LF space `<`, and `split (join y) = y` for every `y`
that is itself an output of `split`. -/
theorem split_join_exact_inverses :
    (∀ x, ¬ ([62, 13, 10, 32, 60] <:+: x) → join (split x) = x) ∧
      (∀ x, split (join (split x)) = split x) :=
  ⟨join_split_of_no_occurrence,
   fun x => split_join_of_not_contains (split x) (containsSplitPat_split x)⟩

theorem split_join_exact_inverses_witness :
    (¬ ([62, 13, 10, 32, 60] <:+: [97, 62, 60]) ∧
        join (split [97, 62, 60]) = [97, 62, 60]) ∧
      split (join (split [62, 13, 10, 32, 60])) = split [62, 13, 10, 32, 60] :=
  ⟨⟨by decide, split_join_exact_inverses.1 [97, 62, 60] (by decide)⟩,
   split_join_exact_inverses.2 [62, 13, 10, 32, 60]⟩

/-- C10: the split substitution is idempotent: the output of `split`
contains no remaining occurrence of the two bytes `><`, hence
`split (split x) = split x` for every byte sequence `x`. -/
theorem split_idempotent (x : List Nat) :
    ¬ ([62, 60] <:+: split x) ∧ split (split x) = split x := by
  constructor
  · intro hinf
    have h1 := containsSplitPat_of_occurrence _ hinf
    rw [containsSplitPat_split x] at h1
    exact Bool.noConfusion h1
  · exact split_id_of_not_contains (split x) (containsSplitPat_split x)

/-- C2: for a valid ZIP buffer none of whose member names ends
(case-insensitively) in `.xml`, decoding the encoded archive returns the
input archive up to compression-method normalization: same member names
in the same order, byte-identical contents, every compression method set
to `ZIP_DEFLATED`. -/
theorem encode_decode_roundtrip (ms : List ZipMember) (f g : String)
    (h : ∀ m ∈ ms, isXmlName m.filename = false) :
    (zipdocdecode (zipdocencode (ZipData.archive ms) f).1 g).1
      = ZipData.archive (ms.map fun m => { m with compress_type := ZIP_DEFLATED }) := by
  simp only [zipdocencode, zipdocdecode, List.map_map]
  congr 1
  apply List.map_congr_left
  intro m hm
  simp [Function.comp, h m hm]

theorem encode_decode_roundtrip_witness :
    (∀ m ∈ [ZipMember.mk [105, 109, 97, 103, 101, 46, 112, 110, 103] 0 [7] [1, 2, 3]],
        isXmlName m.filename = false) ∧
      (zipdocdecode (zipdocencode (ZipData.archive
          [ZipMember.mk [105, 109, 97, 103, 101, 46, 112, 110, 103] 0 [7] [1, 2, 3]]) "a").1 "b").1
        = ZipData.archive
            [ZipMember.mk [105, 109, 97, 103, 101, 46, 112, 110, 103] ZIP_DEFLATED [7] [1, 2, 3]] :=
  ⟨by decide,
   encode_decode_roundtrip
     [ZipMember.mk [105, 109, 97, 103, 101, 46, 112, 110, 103] 0 [7] [1, 2, 3]] "a" "b" (by decide)⟩

/-- C4: encode rewrites every member whose name ends case-insensitively
in `.xml` by replacing each occurrence of `><` in its content with
`>` CR LF space `<`, storing it uncompressed under the same name and
metadata. -/
theorem encode_xml_member (ms : List ZipMember) (f : String) (i : Nat) (m : ZipMember)
    (hi : ms[i]? = some m) (hx : isXmlName m.filename = true) :
    (membersOf (zipdocencode (ZipData.archive ms) f).1)[i]?
      = some { m with compress_type := ZIP_STORED, content := split m.content } := by
  simp only [zipdocencode, membersOf, List.getElem?_map, hi, Option.map_some']
  simp [hx]

theorem encode_xml_member_witness :
    ([ZipMember.mk [119, 111, 114, 100, 47, 100, 111, 99, 117, 109, 101, 110, 116, 46, 120, 109, 108]
        8 [] [60, 97, 62, 60, 98, 47, 62, 60, 47, 97, 62]] : List ZipMember)[0]?
        = some (ZipMember.mk
            [119, 111, 114, 100, 47, 100, 111, 99, 117, 109, 101, 110, 116, 46, 120, 109, 108]
            8 [] [60, 97, 62, 60, 98, 47, 62, 60, 47, 97, 62]) ∧
      isXmlName [119, 111, 114, 100, 47, 100, 111, 99, 117, 109, 101, 110, 116, 46, 120, 109, 108] = true ∧
      (membersOf (zipdocencode (ZipData.archive
          [ZipMember.mk [119, 111, 114, 100, 47, 100, 111, 99, 117, 109, 101, 110, 116, 46, 120, 109, 108]
            8 [] [60, 97, 62, 60, 98, 47, 62, 60, 47, 97, 62]]) "d.docx").1)[0]?
        = some (ZipMember.mk
            [119, 111, 114, 100, 47, 100, 111, 99, 117, 109, 101, 110, 116, 46, 120, 109, 108]
            ZIP_STORED []
            [60, 97, 62, 13, 10, 32, 60, 98, 47, 62, 13, 10, 32, 60, 47, 97, 62]) :=
  ⟨rfl, by decide,
   encode_xml_member
     [ZipMember.mk [119, 111, 114, 100, 47, 100, 111, 99, 117, 109, 101, 110, 116, 46, 120, 109, 108]
        8 [] [60, 97, 62, 60, 98, 47, 62, 60, 47, 97, 62]] "d.docx" 0 _ rfl (by decide)⟩

/-- C5: decode rewrites every member whose name ends case-insensitively
in `.xml` by replacing each occurrence of `>` CR LF space `<` in its
content with `><`, storing it deflated under the same name and
metadata. -/
theorem decode_xml_member (ms : List ZipMember) (f : String) (i : Nat) (m : ZipMember)
    (hi : ms[i]? = some m) (hx : isXmlName m.filename = true) :
    (membersOf (zipdocdecode (ZipData.archive ms) f).1)[i]?
      = some { m with compress_type := ZIP_DEFLATED, content := join m.content } := by
  simp only [zipdocdecode, membersOf, List.getElem?_map, hi, Option.map_some']
  simp [hx]

theorem decode_xml_member_witness :
    ([ZipMember.mk [119, 111, 114, 100, 47, 100, 111, 99, 117, 109, 101, 110, 116, 46, 120, 109, 108]
        0 [] [60, 97, 62, 13, 10, 32, 60, 98, 47, 62, 13, 10, 32, 60, 47, 97, 62]] : List ZipMember)[0]?
        = some (ZipMember.mk
            [119, 111, 114, 100, 47, 100, 111, 99, 117, 109, 101, 110, 116, 46, 120, 109, 108]
            0 [] [60, 97, 62, 13, 10, 32, 60, 98, 47, 62, 13, 10, 32, 60, 47, 97, 62]) ∧
      isXmlName [119, 111, 114, 100, 47, 100, 111, 99, 117, 109, 101, 110, 116, 46, 120, 109, 108] = true ∧
      (membersOf (zipdocdecode (ZipData.archive
          [ZipMember.mk [119, 111, 114, 100, 47, 100, 111, 99, 117, 109, 101, 110, 116, 46, 120, 109, 108]
            0 [] [60, 97, 62, 13, 10, 32, 60, 98, 47, 62, 13, 10, 32, 60, 47, 97, 62]]) "d.docx").1)[0]?
        = some (ZipMember.mk
            [119, 111, 114, 100, 47, 100, 111, 99, 117, 109, 101, 110, 116, 46, 120, 109, 108]
            ZIP_DEFLATED []
            [60, 97, 62, 60, 98, 47, 62, 60, 47, 97, 62]) :=
  ⟨rfl, by decide,
   decode_xml_member
     [ZipMember.mk [119, 111, 114, 100, 47, 100, 111, 99, 117, 109, 101, 110, 116, 46, 120, 109, 108]
        0 [] [60, 97, 62, 13, 10, 32, 60, 98, 47, 62, 13, 10, 32, 60, 47, 97, 62]] "d.docx" 0 _ rfl (by decide)⟩

/-- C6: a buffer that is not a valid ZIP archive passes through both
filters unchanged, and each call emits exactly one note-level diagnostic
event. -/
theorem badzip_passthrough (raw : List Nat) (f : String) :
    (zipdocencode (ZipData.badZip raw) f).1 = ZipData.badZip raw ∧
      noteCount (zipdocencode (ZipData.badZip raw) f).2 = 1 ∧
      (zipdocdecode (ZipData.badZip raw) f).1 = ZipData.badZip raw ∧
      noteCount (zipdocdecode (ZipData.badZip raw) f).2 = 1 :=
  ⟨rfl, rfl, rfl, rfl⟩

/-- C7: every member of an encoded archive reports compression method
`ZIP_STORED`, and every member of a decoded archive reports
`ZIP_DEFLATED`. -/
theorem compression_policy (ms : List ZipMember) (f : String) :
    (∀ m ∈ membersOf (zipdocencode (ZipData.archive ms) f).1,
        m.compress_type = ZIP_STORED) ∧
      (∀ m ∈ membersOf (zipdocdecode (ZipData.archive ms) f).1,
        m.compress_type = ZIP_DEFLATED) := by
  constructor <;>
    · intro m hm
      simp only [zipdocencode, zipdocdecode, membersOf, List.mem_map] at hm
      obtain ⟨a, _, rfl⟩ := hm
      rfl

theorem compression_policy_witness :
    (ZipMember.mk [112] ZIP_STORED [9] [5]
        ∈ membersOf (zipdocencode (ZipData.archive [ZipMember.mk [112] 3 [9] [5]]) "f").1 ∧
      (ZipMember.mk [112] ZIP_STORED [9] [5]).compress_type = ZIP_STORED) ∧
      (ZipMember.mk [112] ZIP_DEFLATED [9] [5]
          ∈ membersOf (zipdocdecode (ZipData.archive [ZipMember.mk [112] 3 [9] [5]]) "f").1 ∧
        (ZipMember.mk [112] ZIP_DEFLATED [9] [5]).compress_type = ZIP_DEFLATED) := by
  have he : ZipMember.mk [112] ZIP_STORED [9] [5]
      ∈ membersOf (zipdocencode (ZipData.archive [ZipMember.mk [112] 3 [9] [5]]) "f").1 := by
    decide
  have hd : ZipMember.mk [112] ZIP_DEFLATED [9] [5]
      ∈ membersOf (zipdocdecode (ZipData.archive [ZipMember.mk [112] 3 [9] [5]]) "f").1 := by
    decide
  exact ⟨⟨he, (compression_policy [ZipMember.mk [112] 3 [9] [5]] "f").1 _ he⟩,
         ⟨hd, (compression_policy [ZipMember.mk [112] 3 [9] [5]] "f").2 _ hd⟩⟩

/-- C8: both filters preserve the sequence of member names exactly: same
order, no reordering, no deduplication (a duplicated input name stays
duplicated, since the output names are the input names position by
position). -/
theorem member_order_preserved (ms : List ZipMember) (f : String) :
    ((membersOf (zipdocencode (ZipData.archive ms) f).1).map fun m => m.filename)
        = ms.map (fun m => m.filename) ∧
      ((membersOf (zipdocdecode (ZipData.archive ms) f).1).map fun m => m.filename)
        = ms.map (fun m => m.filename) := by
  constructor <;>
    simp [zipdocencode, zipdocdecode, membersOf, List.map_map, Function.comp]

/-- C9: a member whose name does not end case-insensitively in `.xml`
passes through both filters with byte-identical content, under its
original name and metadata; only the compression method changes. -/
theorem nonxml_passthrough (ms : List ZipMember) (f : String) (i : Nat) (m : ZipMember)
    (hi : ms[i]? = some m) (hx : isXmlName m.filename = false) :
    (membersOf (zipdocencode (ZipData.archive ms) f).1)[i]?
        = some { m with compress_type := ZIP_STORED } ∧
      (membersOf (zipdocdecode (ZipData.archive ms) f).1)[i]?
        = some { m with compress_type := ZIP_DEFLATED } := by
  constructor <;>
    · simp only [zipdocencode, zipdocdecode, membersOf, List.getElem?_map, hi, Option.map_some']
      simp [hx]

theorem nonxml_passthrough_witness :
    ([ZipMember.mk [105, 109, 97, 103, 101, 46, 112, 110, 103] 8 [4] [9, 8, 7]] : List ZipMember)[0]?
        = some (ZipMember.mk [105, 109, 97, 103, 101, 46, 112, 110, 103] 8 [4] [9, 8, 7]) ∧
      isXmlName [105, 109, 97, 103, 101, 46, 112, 110, 103] = false ∧
      (membersOf (zipdocencode (ZipData.archive
          [ZipMember.mk [105, 109, 97, 103, 101, 46, 112, 110, 103] 8 [4] [9, 8, 7]]) "f").1)[0]?
        = some (ZipMember.mk [105, 109, 97, 103, 101, 46, 112, 110, 103] ZIP_STORED [4] [9, 8, 7]) ∧
      (membersOf (zipdocdecode (ZipData.archive
          [ZipMember.mk [105, 109, 97, 103, 101, 46, 112, 110, 103] 8 [4] [9, 8, 7]]) "f").1)[0]?
        = some (ZipMember.mk [105, 109, 97, 103, 101, 46, 112, 110, 103] ZIP_DEFLATED [4] [9, 8, 7]) :=
  ⟨rfl, by decide,
   (nonxml_passthrough [ZipMember.mk [105, 109, 97, 103, 101, 46, 112, 110, 103] 8 [4] [9, 8, 7]]
      "f" 0 _ rfl (by decide)).1,
   (nonxml_passthrough [ZipMember.mk [105, 109, 97, 103, 101, 46, 112, 110, 103] 8 [4] [9, 8, 7]]
      "f" 0 _ rfl (by decide)).2⟩
